import Mathlib

/-!
Verification of the Dokumenter snippet collection engine.

This file gives a shallow embedding of the snippet store, the
invalidation policy and the markdown exporter of the Dokumenter
VS Code extension, translated from `src/webview/webviewContent.ts`
(class `SnippetManager`), `src/extension.ts` (commands `quickAdd`,
`addWithDetails`, `processSnippet`, `saveAndFinalize`) and
`src/providers/snippetDescriptionLensProvider.ts`
(class `SnippetDescriptionLensProvider`), and proves or refutes the
frozen claims about them.

Modelling conventions:
- JS strings are Lean `String`; `undefined`-able strings are `Option String`.
- The JS truthiness test `if (str)` on a `string | undefined` value is
  `match o with | some s => s ≠ "" | none => false`.
- `Map<string, DecorationOptions[]>` is an association list with the JS
  `Map` semantics (`get`, `set`, `delete`, insertion order kept).
- `path.relative` is a host capability; it is carried abstractly in an
  `Env` record together with the optional workspace root.  The model is
  single-root: `getWorkspaceFolder` and `workspaceFolders[0]` coincide.
- `new Date().toLocaleString()` is an explicit timestamp parameter.
- The snippets-changed callback is registered during activation
  (`extension.ts`, `setOnSnippetsChangedCallback`), so every call of
  `notifySnippetsChanged` is one change notification; the state keeps a
  count of them.
-/

namespace Dokumenter

/-- A line/column range (model of `vscode.Range`). -/
structure Range where
  startLine : Nat
  startCol : Nat
  endLine : Nat
  endCol : Nat
deriving DecidableEq

/-- The snippet record, from `src/types/types.ts` (`interface CodeSnippet`). -/
structure CodeSnippet where
  relativePath : String
  code : String
  language : String
  description : String
  explanation : Option String
  range : Range
deriving DecidableEq

/-- One decoration entry (model of `vscode.DecorationOptions`). -/
structure DecorationOptions where
  range : Range
  hoverMessage : String
deriving DecidableEq

/-- The decorations map `Map<string, vscode.DecorationOptions[]>`,
as an association list keyed by file system path. -/
abbrev DecorationsMap := List (String × List DecorationOptions)

/-- `map.get(k)` of a JS `Map`: `undefined` when the key is absent. -/
def mapGet (m : DecorationsMap) (k : String) : Option (List DecorationOptions) :=
  (m.find? (fun e => e.1 == k)).map (fun e => e.2)

/-- `map.set(k, v)` of a JS `Map`: overwrite in place when present,
append a new entry otherwise. -/
def mapSet (m : DecorationsMap) (k : String) (v : List DecorationOptions) : DecorationsMap :=
  if (m.find? (fun e => e.1 == k)).isSome then
    m.map (fun e => if e.1 == k then (k, v) else e)
  else
    m ++ [(k, v)]

/-- `map.delete(k)` of a JS `Map`. -/
def mapDelete (m : DecorationsMap) (k : String) : DecorationsMap :=
  m.filter (fun e => e.1 != k)

/-- Host environment: the optional workspace root and the host path
library's `path.relative`, consumed as an opaque capability. -/
structure Env where
  workspaceRoot : Option String
  rel : String → String → String

/-- The document key of a file, as computed at every call site:
`workspaceFolder ? path.relative(workspaceFolder.uri.fsPath, fsPath) : fsPath`. -/
def relKey (env : Env) (fsPath : String) : String :=
  match env.workspaceRoot with
  | some root => env.rel root fsPath
  | none => fsPath

/-- The mutable state owned by `SnippetManager`
(`src/webview/webviewContent.ts`): the snippet list, the decorations
map, and a count of fired change notifications. -/
structure ManagerState where
  snippets : List CodeSnippet
  decorations : DecorationsMap
  changeEvents : Nat
deriving DecidableEq

/-- `notifySnippetsChanged()`: fires the snippets-changed callback once. -/
def notifySnippetsChanged (s : ManagerState) : ManagerState :=
  { s with changeEvents := s.changeEvents + 1 }

/-- `explanation || undefined`: an empty-string explanation is stored as
absent. -/
def normalizeExpl : Option String → Option String
  | some e => if e = "" then none else some e
  | none => none

/-- The snippet record built by `SnippetManager.addSnippet` (and by
`processSnippet` in `extension.ts`, which uses the same field logic). -/
def buildSnippet (env : Env) (fsPath code languageId : String) (selection : Range)
    (description : String) (explanation : Option String) : CodeSnippet :=
  { relativePath := relKey env fsPath
    code := code
    language := languageId
    description := description
    explanation := normalizeExpl explanation
    range := selection }

/-- `SnippetManager.addHighlight`: ensure a decorations entry for the
file and push one decoration with the hover message built from the
description and (truthy) explanation. -/
def addHighlight (fsPath : String) (range : Range) (description : String)
    (explanation : Option String) (s : ManagerState) : ManagerState :=
  let hoverText :=
    match explanation with
    | some e =>
        if e = "" then "**📝 Saved Snippet**\n\n**Description:** " ++ description
        else "**📝 Saved Snippet**\n\n**Description:** " ++ description ++
             "\n\n**Explanation:** " ++ e
    | none => "**📝 Saved Snippet**\n\n**Description:** " ++ description
  let cur := (mapGet s.decorations fsPath).getD []
  { s with decorations := mapSet s.decorations fsPath (cur ++ [⟨range, hoverText⟩]) }

/-- `SnippetManager.addSnippet(editor, selection, description, explanation?)`:
appends the snippet built from the editor's document, adds its
highlight and fires one change notification.  There is no validation of
`description` here. -/
def addSnippet (env : Env) (fsPath code languageId : String) (selection : Range)
    (description : String) (explanation : Option String) (s : ManagerState) : ManagerState :=
  let snippet := buildSnippet env fsPath code languageId selection description explanation
  let s1 := { s with snippets := s.snippets ++ [snippet] }
  let s2 := addHighlight fsPath selection snippet.description snippet.explanation s1
  notifySnippetsChanged s2

/-- `SnippetManager.updateSnippet(index, description, explanation?)`:
guarded by `index >= 0 && index < this.snippets.length`; on success
overwrites the two fields in place and fires one change notification. -/
def updateSnippet (index : Int) (description : String) (explanation : Option String)
    (s : ManagerState) : ManagerState :=
  if h : 0 ≤ index ∧ index < (s.snippets.length : Int) then
    let i : Fin s.snippets.length := ⟨index.toNat, by omega⟩
    let old := s.snippets.get i
    notifySnippetsChanged
      { s with snippets :=
          s.snippets.set i.val { old with description := description, explanation := explanation } }
  else s

/-- `SnippetManager.getSnippetsCount()`. -/
def getSnippetsCount (s : ManagerState) : Nat :=
  s.snippets.length

/-- `SnippetManager.clearAll()`: empties the list and the decorations
map and fires one change notification. -/
def clearAll (s : ManagerState) : ManagerState :=
  notifySnippetsChanged { s with snippets := [], decorations := [] }

/-- `SnippetManager.handleTextChange(filePath)`: acts only when the
decorations map holds a non-empty entry for the path; then deletes that
entry, drops every snippet whose `relativePath` equals the file's
document key, and fires one change notification only when the list
shrank. -/
def handleTextChange (env : Env) (fsPath : String) (s : ManagerState) : ManagerState :=
  let fileDecorations := (mapGet s.decorations fsPath).getD []
  if fileDecorations.length > 0 then
    let s1 : ManagerState := { s with decorations := mapDelete s.decorations fsPath }
    let relativePath := relKey env fsPath
    let newSnippets := s1.snippets.filter (fun sn => sn.relativePath != relativePath)
    let s2 : ManagerState := { s1 with snippets := newSnippets }
    if newSnippets.length < s.snippets.length then notifySnippetsChanged s2 else s2
  else s

/-- `SnippetManager.updateSnippetsFromExternal(updatedSnippets)`:
replaces the snippet list; the decorations map is not rebuilt and no
change notification is fired. -/
def updateSnippetsFromExternal (updated : List CodeSnippet) (s : ManagerState) : ManagerState :=
  { s with snippets := updated }

/-! ## Markdown exporter -/

/-- The JS global replace `explanation.replace(/\n/g, '\n> ')`, on the
character list of the string. -/
def replaceNl : List Char → List Char
  | [] => []
  | c :: rest => if c = '\n' then '\n' :: '>' :: ' ' :: replaceNl rest else c :: replaceNl rest

/-- `snippet.explanation.replace(/\n/g, '\n> ')` as a `String`. -/
def quoteExpl (e : String) : String :=
  ⟨replaceNl e.data⟩

/-- The explanation section of one exported snippet:
`if (snippet.explanation) content += ...` — emitted exactly when the
explanation is truthy (present and non-empty). -/
def explSection (sn : CodeSnippet) : String :=
  match sn.explanation with
  | some e =>
      if e = "" then ""
      else "**Explanation:**\n\n> " ++ quoteExpl e ++ "\n\n"
  | none => ""

/-- The markdown emitted for one snippet by the loop body of
`SnippetManager.generateMarkdownContent`. -/
def snippetBlock (sn : CodeSnippet) : String :=
  "## " ++ sn.description ++ "\n\n" ++
  "**File:** `" ++ sn.relativePath ++ "`\n\n" ++
  explSection sn ++
  "**Code:**\n" ++
  "```" ++ sn.language ++ "\n" ++ sn.code ++ "\n" ++ "```" ++ "\n\n---\n\n"

/-- `SnippetManager.generateMarkdownContent()`: the header built from
the generation timestamp, then `forEach` appending one block per
snippet in store order. -/
def generateMarkdownContent (timestamp : String) (s : ManagerState) : String :=
  s.snippets.foldl (fun content sn => content ++ snippetBlock sn)
    ("# Code Snippets Collection\n\n*Generated on: " ++ timestamp ++ "*\n\n---\n\n")

/-- Concatenation of the per-snippet blocks, for the structural
statement of the exporter claims. -/
def concatAll : List String → String
  | [] => ""
  | b :: bs => b ++ concatAll bs

/-- `saveAndFinalize(fileUri)` (`extension.ts`): render the current
store, attempt the write, and on success only run `clearAll`; on a
write failure the state is left untouched and the error is surfaced.
`writeOk` is the outcome of the host write capability; the second
component is the content persisted at the destination (`none` when the
write failed). -/
def saveAndFinalize (timestamp : String) (writeOk : Bool) (s : ManagerState) :
    ManagerState × Option String :=
  let content := generateMarkdownContent timestamp s
  if writeOk then (clearAll s, some content) else (s, none)

/-! ## Interactive workflows

A `showInputBox` answer is `Option String`: `none` is a dismissed
prompt, `some ""` is an empty submission.  The guard `if (description)`
of the source rejects both. -/

/-- The single-selection branch of `quickAdd` (`extension.ts`):
`if (description) { snippetManager.addSnippet(editor, sel, description) }`. -/
def quickAddSingle (env : Env) (fsPath code languageId : String) (sel : Range)
    (answer : Option String) (s : ManagerState) : ManagerState :=
  match answer with
  | some description =>
      if description = "" then s
      else addSnippet env fsPath code languageId sel description none s
  | none => s

/-- The individual-descriptions branch of `quickAdd` for multiple
selections: prompt per selection; on a truthy description add the
snippet and continue, otherwise `break` out of the loop keeping the
snippets already added.  Each selection carries its range and the text
`document.getText(selection)`. -/
def quickAddIndividual (env : Env) (fsPath languageId : String) :
    List (Range × String) → List (Option String) → ManagerState → ManagerState
  | [], _, s => s
  | _ :: _, [], s => s
  | (r, c) :: rest, a :: as, s =>
      match a with
      | some description =>
          if description = "" then s
          else quickAddIndividual env fsPath languageId rest as
                 (addSnippet env fsPath c languageId r description none s)
      | none => s

/-- The selections actually consumed by `quickAddIndividual`: the
longest leading run of truthy description answers, paired with those
descriptions. -/
def answeredRun : List (Range × String) → List (Option String) → List ((Range × String) × String)
  | [], _ => []
  | _ :: _, [] => []
  | rc :: rest, a :: as =>
      match a with
      | some description =>
          if description = "" then []
          else (rc, description) :: answeredRun rest as
      | none => []

/-- The `addHighlight` of `src/extension.ts` (module-global variant used
by `processSnippet`): same map discipline, plain hover text, no change
notification. -/
def addHighlightExt (fsPath : String) (range : Range) (description : String)
    (s : ManagerState) : ManagerState :=
  let cur := (mapGet s.decorations fsPath).getD []
  let deco : DecorationOptions := ⟨range, "**Saved Snippet:**\n\n> " ++ description⟩
  { s with decorations := mapSet s.decorations fsPath (cur ++ [deco]) }

/-- `processSnippet(editor, selection, description, { explanation })`
(`src/extension.ts`): append the snippet (with `explanation || undefined`)
and add its highlight. -/
def processSnippet (env : Env) (fsPath code languageId : String) (sel : Range)
    (description : String) (explanation : Option String) (s : ManagerState) : ManagerState :=
  let snippet := buildSnippet env fsPath code languageId sel description explanation
  let s1 := { s with snippets := s.snippets ++ [snippet] }
  addHighlightExt fsPath sel description s1

/-- `addWithDetails(selection)` (`src/extension.ts`): prompt for a
description (`if (!description) return`), then prompt for an optional
explanation, then `processSnippet` — the second prompt's answer is used
whether or not the user dismissed it. -/
def addWithDetails (env : Env) (fsPath code languageId : String) (sel : Range)
    (descAnswer explAnswer : Option String) (s : ManagerState) : ManagerState :=
  match descAnswer with
  | some description =>
      if description = "" then s
      else processSnippet env fsPath code languageId sel description explAnswer s
  | none => s

/-! ## Description-lens edit operations

`SnippetDescriptionLensProvider` keeps a mirror of the manager's
snippet list (synced through `updateSnippets` /
`updateSnippetsFromExternal`), and its handlers mutate the snippet
objects shared with the manager; the model applies them to the single
shared list.  The webview-edit branch guarded by
`this.showEditWebviewCallback` is dead code in this build —
`setShowEditWebviewCallback` is never invoked anywhere in the sources —
so the handlers always take the `showInputBox` path. -/

/-- Mutation of the first element matched by `Array.prototype.find`. -/
def updateFirst (p : CodeSnippet → Bool) (f : CodeSnippet → CodeSnippet) :
    List CodeSnippet → List CodeSnippet
  | [] => []
  | x :: xs => if p x then f x :: xs else x :: updateFirst p f xs

/-- The lookup predicate shared by all four lens handlers:
`s.relativePath === relativePath && s.range.start.line === snippetLine`. -/
def lensMatch (relativePath : String) (snippetLine : Nat) (sn : CodeSnippet) : Bool :=
  sn.relativePath == relativePath && sn.range.startLine == snippetLine

/-- `handleEditDescription(snippetLine, filePath)`: find the snippet; if
the prompt was not dismissed (`newDescription !== undefined`) overwrite
its description with whatever string was submitted — the empty string
included. -/
def handleEditDescription (env : Env) (snippetLine : Nat) (fsPath : String)
    (answer : Option String) (s : ManagerState) : ManagerState :=
  let relativePath := relKey env fsPath
  match s.snippets.find? (lensMatch relativePath snippetLine) with
  | none => s
  | some _ =>
      match answer with
      | none => s
      | some newDescription =>
          let newList := updateFirst (lensMatch relativePath snippetLine)
            (fun sn => { sn with description := newDescription }) s.snippets
          { s with snippets := newList }

/-- `handleEditExplanation(snippetLine, filePath)` (input-box path):
overwrite the found snippet's explanation with any submitted string. -/
def handleEditExplanation (env : Env) (snippetLine : Nat) (fsPath : String)
    (answer : Option String) (s : ManagerState) : ManagerState :=
  let relativePath := relKey env fsPath
  match s.snippets.find? (lensMatch relativePath snippetLine) with
  | none => s
  | some _ =>
      match answer with
      | none => s
      | some newExplanation =>
          let newList := updateFirst (lensMatch relativePath snippetLine)
            (fun sn => { sn with explanation := some newExplanation }) s.snippets
          { s with snippets := newList }

/-- `handleDeleteDescription(snippetLine, filePath)`: when the modal
warning is confirmed, filter out every snippet matching the
(relativePath, line) pair. -/
def handleDeleteDescription (env : Env) (snippetLine : Nat) (fsPath : String)
    (confirmed : Bool) (s : ManagerState) : ManagerState :=
  let relativePath := relKey env fsPath
  match s.snippets.find? (lensMatch relativePath snippetLine) with
  | none => s
  | some _ =>
      if confirmed then
        { s with snippets := s.snippets.filter (fun sn => !lensMatch relativePath snippetLine sn) }
      else s

/-- `handleDeleteExplanation(snippetLine, filePath)`: when confirmed,
set the found snippet's explanation to the empty string. -/
def handleDeleteExplanation (env : Env) (snippetLine : Nat) (fsPath : String)
    (confirmed : Bool) (s : ManagerState) : ManagerState :=
  let relativePath := relKey env fsPath
  match s.snippets.find? (lensMatch relativePath snippetLine) with
  | none => s
  | some _ =>
      if confirmed then
        let newList := updateFirst (lensMatch relativePath snippetLine)
          (fun sn => { sn with explanation := some "" }) s.snippets
        { s with snippets := newList }
      else s

/-! ## The store's operations as one step relation -/

/-- One public operation of the store, with the data its source
implementation reads. -/
inductive StoreOp where
  | add (fsPath code languageId : String) (sel : Range)
        (description : String) (explanation : Option String)
  | update (index : Int) (description : String) (explanation : Option String)
  | lensEditDescription (snippetLine : Nat) (fsPath : String) (answer : Option String)
  | lensEditExplanation (snippetLine : Nat) (fsPath : String) (answer : Option String)
  | lensDeleteDescription (snippetLine : Nat) (fsPath : String) (confirmed : Bool)
  | lensDeleteExplanation (snippetLine : Nat) (fsPath : String) (confirmed : Bool)
  | textChange (fsPath : String)
  | clearAll
  | exportAll (timestamp : String) (writeOk : Bool)

/-- Apply one operation to the store state. -/
def applyOp (env : Env) : StoreOp → ManagerState → ManagerState
  | .add fsPath code languageId sel d e, s => addSnippet env fsPath code languageId sel d e s
  | .update i d e, s => updateSnippet i d e s
  | .lensEditDescription line fsPath a, s => handleEditDescription env line fsPath a s
  | .lensEditExplanation line fsPath a, s => handleEditExplanation env line fsPath a s
  | .lensDeleteDescription line fsPath c, s => handleDeleteDescription env line fsPath c s
  | .lensDeleteExplanation line fsPath c, s => handleDeleteExplanation env line fsPath c s
  | .textChange fsPath, s => handleTextChange env fsPath s
  | .clearAll, s => clearAll s
  | .exportAll t ok, s => (saveAndFinalize t ok s).1

/-- The inputs under which the invariant can be expected: the
description handed to `add`/`update` and a submitted lens-edit
description are non-empty (which the interactive callers enforce for
`add` and `update`, but not the edit lens). -/
def opHasNonEmptyDescriptions : StoreOp → Bool
  | .add _ _ _ _ d _ => d != ""
  | .update _ d _ => d != ""
  | .lensEditDescription _ _ a => a != some ""
  | _ => true

/-- The invariant of claim C5: every stored snippet has a non-empty
description. -/
def DescriptionsNonEmpty (s : ManagerState) : Prop :=
  ∀ sn ∈ s.snippets, sn.description ≠ ""

/-! ## Line structure of the block-quoted explanation -/

/-- Split a character list at every newline: first line and the
remaining lines. -/
def splitNlAux : List Char → List Char × List (List Char)
  | [] => ([], [])
  | c :: rest =>
      let r := splitNlAux rest
      if c = '\n' then ([], r.1 :: r.2) else (c :: r.1, r.2)

/-- The lines of a character list (an empty text has one empty line). -/
def splitNl (d : List Char) : List (List Char) :=
  (splitNlAux d).1 :: (splitNlAux d).2

/-- Join lines with newlines (inverse of `splitNl`). -/
def joinNl : List (List Char) → List Char
  | [] => []
  | [l] => l
  | l :: ls => l ++ '\n' :: joinNl ls

/-- The explanation rendered as a block-quote in which every line is
prefixed with "> ", stated over the lines of the text. -/
def quotedLines (e : String) : String :=
  ⟨joinNl ((splitNl e.data).map (fun l => '>' :: ' ' :: l))⟩

/-- A text is blank when every character is whitespace (the spec's
vocabulary in claim C7; the empty text is blank). -/
def isBlank (e : String) : Bool :=
  e.data.all (fun c => c.isWhitespace)

/-! ## Concrete sample data for witnesses and counterexamples -/

/-- A host environment with no open workspace (document keys fall back
to the full path). -/
def envNoRoot : Env :=
  ⟨none, fun _ p => p⟩

/-- A sample selection range. -/
def rangeA : Range :=
  ⟨3, 0, 3, 12⟩

/-- The store state at startup. -/
def emptyState : ManagerState :=
  ⟨[], [], 0⟩

/-- A sample stored snippet anchored in `a.ts`. -/
def snippetA : CodeSnippet :=
  ⟨"a.ts", "const x = 1;", "typescript", "Constant setup", none, rangeA⟩

/-- A state holding `snippetA` while the decorations map has no entry
for `a.ts` (as after `updateSnippetsFromExternal`). -/
def stateA : ManagerState :=
  ⟨[snippetA], [], 0⟩

/-- A sample decoration for `a.ts`. -/
def decoA : DecorationOptions :=
  ⟨rangeA, "hover"⟩

/-- A state holding `snippetA` together with a non-empty decorations
entry for `a.ts`. -/
def stateB : ManagerState :=
  ⟨[snippetA], [("a.ts", [decoA])], 0⟩

/-- A snippet whose explanation is a single space: present, non-empty,
but blank. -/
def snippetBlankExpl : CodeSnippet :=
  ⟨"a.ts", "const x = 1;", "typescript", "d", some " ", rangeA⟩

/-! ## Helper lemmas -/

theorem str_ext {s t : String} (h : s.data = t.data) : s = t := by
  cases s
  cases t
  exact congrArg String.mk h

theorem str_data_append (s t : String) : (s ++ t).data = s.data ++ t.data := rfl

theorem str_append_empty (s : String) : s ++ "" = s := by
  apply str_ext
  rw [str_data_append]
  exact List.append_nil s.data

theorem str_append_assoc (a b c : String) : a ++ b ++ c = a ++ (b ++ c) := by
  apply str_ext
  simp only [str_data_append]
  exact List.append_assoc a.data b.data c.data

theorem expl_prefix_ne_empty (x y : String) :
    "**Explanation:**\n\n> " ++ x ++ y ≠ "" := by
  intro h
  have hlen := congrArg (fun s => s.data.length) h
  simp only [str_data_append, List.length_append] at hlen
  simp at hlen

theorem foldl_append_concatAll (f : CodeSnippet → String) :
    ∀ (l : List CodeSnippet) (init : String),
      l.foldl (fun content sn => content ++ f sn) init = init ++ concatAll (l.map f)
  | [], init => (str_append_empty init).symm
  | sn :: rest, init => by
      simp only [List.foldl, List.map, concatAll]
      rw [foldl_append_concatAll f rest (init ++ f sn), str_append_assoc]

theorem length_filter_lt_iff_exists_not {α : Type} (p : α → Bool) (l : List α) :
    (l.filter p).length < l.length ↔ ∃ x ∈ l, p x = false := by
  induction l with
  | nil => simp
  | cons x xs ih =>
      by_cases hx : p x
      · simpa [List.filter_cons, hx, Nat.succ_lt_succ_iff] using ih
      · have hx' : p x = false := by simpa using hx
        have hle := List.length_filter_le p xs
        simp only [List.filter_cons, hx', Bool.false_eq_true, if_false]
        constructor
        · intro _
          exact ⟨x, List.mem_cons_self x xs, hx'⟩
        · intro _
          exact Nat.lt_succ_of_le hle

theorem mem_updateFirst {p : CodeSnippet → Bool} {f : CodeSnippet → CodeSnippet} :
    ∀ {l : List CodeSnippet} {x : CodeSnippet},
      x ∈ updateFirst p f l → x ∈ l ∨ ∃ y ∈ l, x = f y := by
  intro l
  induction l with
  | nil =>
      intro x hx
      simp [updateFirst] at hx
  | cons a as ih =>
      intro x hx
      by_cases ha : p a
      · simp only [updateFirst, if_pos ha, List.mem_cons] at hx
        rcases hx with hx | hx
        · exact Or.inr ⟨a, List.mem_cons_self a as, hx⟩
        · exact Or.inl (List.mem_cons_of_mem a hx)
      · simp only [updateFirst, if_neg ha, List.mem_cons] at hx
        rcases hx with hx | hx
        · exact Or.inl (by simp [hx])
        · rcases ih hx with h | ⟨y, hy, hxy⟩
          · exact Or.inl (List.mem_cons_of_mem a h)
          · exact Or.inr ⟨y, List.mem_cons_of_mem a hy, hxy⟩

theorem addSnippet_snippets (env : Env) (fsPath code languageId : String) (sel : Range)
    (d : String) (e : Option String) (s : ManagerState) :
    (addSnippet env fsPath code languageId sel d e s).snippets =
      s.snippets ++ [buildSnippet env fsPath code languageId sel d e] := rfl

theorem quickAddIndividual_snippets (env : Env) (fsPath languageId : String) :
    ∀ (sels : List (Range × String)) (answers : List (Option String)) (s : ManagerState),
      (quickAddIndividual env fsPath languageId sels answers s).snippets =
        s.snippets ++ (answeredRun sels answers).map
          (fun q => buildSnippet env fsPath q.1.2 languageId q.1.1 q.2 none)
  | [], answers, s => by
      cases answers <;> simp [quickAddIndividual, answeredRun]
  | _ :: _, [], s => by
      simp [quickAddIndividual, answeredRun]
  | (r, c) :: rest, a :: as, s => by
      cases a with
      | none => simp [quickAddIndividual, answeredRun]
      | some d =>
          by_cases hd : d = ""
          · simp [quickAddIndividual, answeredRun, hd]
          · simp only [quickAddIndividual, answeredRun, if_neg hd]
            rw [quickAddIndividual_snippets env fsPath languageId rest as _,
                addSnippet_snippets, List.map_cons, List.append_assoc]
            rfl

theorem joinNl_cons_split (l d : List Char) :
    joinNl (l :: (splitNl d).map (fun x => '>' :: ' ' :: x)) =
      l ++ '\n' :: joinNl ((splitNl d).map (fun x => '>' :: ' ' :: x)) := rfl

theorem replaceNl_quoted : ∀ (d : List Char),
    '>' :: ' ' :: replaceNl d =
      joinNl ((splitNl d).map (fun l => '>' :: ' ' :: l)) := by
  intro d
  induction d with
  | nil => rfl
  | cons c rest ih =>
      by_cases hc : c = '\n'
      · subst hc
        have lhs : replaceNl ('\n' :: rest) = '\n' :: '>' :: ' ' :: replaceNl rest := by
          simp [replaceNl]
        have hsplit : splitNl ('\n' :: rest) = [] :: splitNl rest := by
          simp [splitNl, splitNlAux]
        rw [lhs, hsplit, List.map_cons, joinNl_cons_split, ← ih]
        rfl
      · have lhs : replaceNl (c :: rest) = c :: replaceNl rest := by
          simp [replaceNl, hc]
        have hsplit : splitNl (c :: rest) =
            (c :: (splitNlAux rest).1) :: (splitNlAux rest).2 := by
          simp [splitNl, splitNlAux, hc]
        rw [lhs, hsplit, List.map_cons]
        have ih' : '>' :: ' ' :: replaceNl rest =
            joinNl (('>' :: ' ' :: (splitNlAux rest).1) ::
              (splitNlAux rest).2.map (fun l => '>' :: ' ' :: l)) := ih
        rcases h2 : (splitNlAux rest).2 with _ | ⟨m, ms⟩
        · rw [h2] at ih'
          simp only [List.map_nil, joinNl] at ih' ⊢
          have hrest : replaceNl rest = (splitNlAux rest).1 := by
            simpa only [List.cons.injEq, true_and] using ih'
          rw [hrest]
        · rw [h2] at ih'
          simp only [List.map_cons, joinNl] at ih' ⊢
          have hrest : replaceNl rest =
              (splitNlAux rest).1 ++ '\n' ::
                joinNl (('>' :: ' ' :: m) :: ms.map (fun l => '>' :: ' ' :: l)) := by
            simpa only [List.cons_append, List.cons.injEq, true_and] using ih'
          rw [hrest]
          simp

/-! ## Claim theorems -/

/-- C2 (confirmed): the export operation renders the current snippet
list and writes the rendered text; the store is cleared exactly when
the write succeeds, and after a failed write the state (in particular
the snippet list) is identical to the state before the call, so the
user can retry. -/
theorem export_consume_on_success (t : String) (s : ManagerState) :
    (saveAndFinalize t true s).2 = some (generateMarkdownContent t s) ∧
    (saveAndFinalize t true s).1 = clearAll s ∧
    (saveAndFinalize t true s).1.snippets = [] ∧
    (saveAndFinalize t false s).1 = s ∧
    (saveAndFinalize t false s).2 = none :=
  ⟨rfl, rfl, rfl, rfl, rfl⟩

/-- C6 (confirmed): the rendered export document is the header
`# Code Snippets Collection`, the italic generation-timestamp line and
a horizontal rule, followed by one block per snippet in store order;
the number of blocks (each contributing exactly one `##` heading)
equals `count()` at the moment of rendering, and each block is the
`## description` heading immediately followed by the
`**File:**`-backticked document key, the optional explanation section,
the `**Code:**` fenced block tagged with the language containing the
code verbatim, and a trailing horizontal rule. -/
theorem export_document_structure (t : String) (s : ManagerState) :
    generateMarkdownContent t s =
      "# Code Snippets Collection\n\n*Generated on: " ++ t ++ "*\n\n---\n\n" ++
        concatAll (s.snippets.map snippetBlock) ∧
    (s.snippets.map snippetBlock).length = getSnippetsCount s ∧
    (∀ sn, snippetBlock sn =
      "## " ++ sn.description ++ "\n\n" ++
      "**File:** `" ++ sn.relativePath ++ "`\n\n" ++
      explSection sn ++
      "**Code:**\n" ++
      "```" ++ sn.language ++ "\n" ++ sn.code ++ "\n" ++ "```" ++ "\n\n---\n\n") := by
  refine ⟨?_, by simp [getSnippetsCount], fun sn => rfl⟩
  exact foldl_append_concatAll snippetBlock s.snippets _

/-- C8 (confirmed): rendering is a pure, deterministic function of the
snippet list and the generation timestamp — two states agreeing on
their snippet lists render byte-identically at the same timestamp, so
the output depends on no other component of the store state. -/
theorem render_deterministic (s1 s2 : ManagerState) (t1 t2 : String)
    (hsnippets : s1.snippets = s2.snippets) (ht : t1 = t2) :
    generateMarkdownContent t1 s1 = generateMarkdownContent t2 s2 := by
  unfold generateMarkdownContent
  rw [hsnippets, ht]

theorem render_deterministic_witness :
    generateMarkdownContent "8/30/2025, 10:00:00 AM" stateA =
      generateMarkdownContent "8/30/2025, 10:00:00 AM"
        ⟨[snippetA], [("a.ts", [decoA])], 7⟩ :=
  render_deterministic stateA ⟨[snippetA], [("a.ts", [decoA])], 7⟩ _ _ rfl rfl

/-- C9 (confirmed): `updateSnippet` with an index that does not resolve
to an existing snippet is a silent no-op; with a resolving index it
overwrites that snippet's description and explanation in place,
preserves the list length and every other position, leaves the
decorations untouched and fires exactly one change notification. -/
theorem update_in_place_or_noop (i : Int) (d : String) (e : Option String) (s : ManagerState) :
    (¬ (0 ≤ i ∧ i < (s.snippets.length : Int)) → updateSnippet i d e s = s) ∧
    (∀ h : 0 ≤ i ∧ i < (s.snippets.length : Int),
      (updateSnippet i d e s).snippets.length = s.snippets.length ∧
      (updateSnippet i d e s).snippets.get? i.toNat =
        some { s.snippets.get ⟨i.toNat, by omega⟩ with description := d, explanation := e } ∧
      (∀ j, j ≠ i.toNat → (updateSnippet i d e s).snippets.get? j = s.snippets.get? j) ∧
      (updateSnippet i d e s).decorations = s.decorations ∧
      (updateSnippet i d e s).changeEvents = s.changeEvents + 1) := by
  constructor
  · intro h
    unfold updateSnippet
    rw [dif_neg h]
  · intro h
    have hlt : i.toNat < s.snippets.length := by omega
    unfold updateSnippet
    rw [dif_pos h]
    refine ⟨by simp [notifySnippetsChanged], ?_, ?_, rfl, rfl⟩
    · show (s.snippets.set i.toNat _).get? i.toNat = _
      rw [List.get?_eq_getElem?, List.getElem?_set_self', List.getElem?_eq_getElem hlt]
      rfl
    · intro j hj
      show (s.snippets.set i.toNat _).get? j = _
      rw [List.get?_eq_getElem?, List.getElem?_set_ne (by omega), ← List.get?_eq_getElem?]

theorem update_in_place_or_noop_witness :
    updateSnippet 5 "x" none stateA = stateA ∧
    (updateSnippet 0 "x" none stateA).changeEvents = stateA.changeEvents + 1 :=
  ⟨(update_in_place_or_noop 5 "x" none stateA).1 (by decide),
   ((update_in_place_or_noop 0 "x" none stateA).2 (by decide)).2.2.2.2⟩

/-- C10 (confirmed): `handleTextChange` removes snippets only when the
decorations map holds a non-empty entry for the mutated file's path;
whenever that entry is absent or empty the whole state — snippet list
included — is left unchanged, even when snippets with that document key
are present; and `updateSnippetsFromExternal` never rebuilds the
decorations map. -/
theorem textChange_gated_by_decorations (env : Env) (fsPath : String) (s : ManagerState)
    (h : mapGet s.decorations fsPath = none ∨ mapGet s.decorations fsPath = some []) :
    handleTextChange env fsPath s = s ∧
    (∀ (l : List CodeSnippet) (s' : ManagerState),
      (updateSnippetsFromExternal l s').decorations = s'.decorations) := by
  constructor
  · unfold handleTextChange
    rcases h with h | h <;> simp [h]
  · intro l s'
    rfl

theorem textChange_gated_by_decorations_witness :
    handleTextChange envNoRoot "a.ts" (updateSnippetsFromExternal [snippetA] emptyState) =
      updateSnippetsFromExternal [snippetA] emptyState :=
  (textChange_gated_by_decorations envNoRoot "a.ts"
    (updateSnippetsFromExternal [snippetA] emptyState) (Or.inl (by decide))).1

/-- C1 (refuted as stated): in `stateA` a snippet whose document key
equals the mutated file's key is present but the decorations map has
no entry for that file; the invalidation step then removes nothing and
fires no change notification, contradicting the claim that every
snippet with that key is removed and exactly one notification fires. -/
theorem invalidation_not_unconditional :
    handleTextChange envNoRoot "a.ts" stateA = stateA ∧
    stateA.snippets = [snippetA] ∧
    snippetA.relativePath = relKey envNoRoot "a.ts" ∧
    (handleTextChange envNoRoot "a.ts" stateA).changeEvents = stateA.changeEvents := by
  refine ⟨by decide, rfl, rfl, by decide⟩

/-- C1 (amended): provided the decorations map holds a non-empty entry
for the mutated file's path, the invalidation step removes exactly the
snippets whose document key equals the mutated document's key (the
result is a filter of the list, so all other snippets are unchanged and
keep their original order), deletes that decorations entry, and fires
exactly one change notification when at least one snippet was removed
— and none when no snippet matched. -/
theorem invalidation_under_active_decorations (env : Env) (fsPath : String)
    (s : ManagerState) (l : List DecorationOptions)
    (hget : mapGet s.decorations fsPath = some l) (hne : l ≠ []) :
    (handleTextChange env fsPath s).snippets =
      s.snippets.filter (fun sn => sn.relativePath != relKey env fsPath) ∧
    (handleTextChange env fsPath s).decorations = mapDelete s.decorations fsPath ∧
    ((∃ sn ∈ s.snippets, sn.relativePath = relKey env fsPath) →
      (handleTextChange env fsPath s).changeEvents = s.changeEvents + 1) ∧
    ((∀ sn ∈ s.snippets, sn.relativePath ≠ relKey env fsPath) →
      (handleTextChange env fsPath s).changeEvents = s.changeEvents) := by
  have hl : 0 < l.length := by
    cases l with
    | nil => exact absurd rfl hne
    | cons a as => simp
  have hred : handleTextChange env fsPath s =
      (if (s.snippets.filter (fun sn => sn.relativePath != relKey env fsPath)).length <
            s.snippets.length
       then notifySnippetsChanged
              { s with
                snippets := s.snippets.filter (fun sn => sn.relativePath != relKey env fsPath),
                decorations := mapDelete s.decorations fsPath }
       else { s with
              snippets := s.snippets.filter (fun sn => sn.relativePath != relKey env fsPath),
              decorations := mapDelete s.decorations fsPath }) := by
    unfold handleTextChange
    rw [hget]
    simp only [Option.getD_some]
    rw [if_pos hl]
  refine ⟨?_, ?_, ?_, ?_⟩
  · rw [hred]
    split <;> rfl
  · rw [hred]
    split <;> rfl
  · intro hex
    have hlt : (s.snippets.filter (fun sn => sn.relativePath != relKey env fsPath)).length <
        s.snippets.length := by
      rw [length_filter_lt_iff_exists_not]
      rcases hex with ⟨sn, hsn, hk⟩
      exact ⟨sn, hsn, by simp [hk]⟩
    rw [hred, if_pos hlt]
    rfl
  · intro hall
    have hge : ¬ (s.snippets.filter (fun sn => sn.relativePath != relKey env fsPath)).length <
        s.snippets.length := by
      rw [length_filter_lt_iff_exists_not]
      rintro ⟨sn, hsn, hk⟩
      exact hall sn hsn (by simpa using hk)
    rw [hred, if_neg hge]

theorem invalidation_under_active_decorations_witness :
    (handleTextChange envNoRoot "a.ts" stateB).snippets = [] ∧
    (handleTextChange envNoRoot "a.ts" stateB).changeEvents = stateB.changeEvents + 1 := by
  have h := invalidation_under_active_decorations envNoRoot "a.ts" stateB [decoA]
    (by decide) (by decide)
  refine ⟨?_, h.2.2.1 ⟨snippetA, by decide, by decide⟩⟩
  rw [h.1]
  decide

/-- C3 (refuted as stated): in the two-step "add with details" workflow,
cancelling at the second (explanation) step does not leave the store in
its pre-workflow state — the snippet is appended anyway, with no
explanation. -/
theorem cancelled_explanation_step_still_adds :
    (addWithDetails envNoRoot "a.ts" "const x = 1;" "typescript" rangeA
        (some "d") none emptyState).snippets =
      [⟨"a.ts", "const x = 1;", "typescript", "d", none, rangeA⟩] ∧
    emptyState.snippets = [] :=
  ⟨by decide, rfl⟩

/-- C3 (amended): cancelling (or emptying) the description prompt leaves
the store exactly as it was before the workflow, both in the "add with
details" flow and at the first step of the individual-descriptions
multi-selection flow; but cancelling the optional explanation step
still appends the snippet (with no explanation), and abandoning the
individual-descriptions flow at a later step keeps the snippets already
added: the resulting list is the original extended by the longest
leading run of answered selections. -/
theorem cancellation_behavior (env : Env) (fsPath code languageId : String) (sel : Range)
    (e : Option String) (d : String) (hd : d ≠ "") (s : ManagerState)
    (sels : List (Range × String)) (answers rest : List (Option String)) :
    addWithDetails env fsPath code languageId sel none e s = s ∧
    addWithDetails env fsPath code languageId sel (some "") e s = s ∧
    (addWithDetails env fsPath code languageId sel (some d) none s).snippets =
      s.snippets ++ [buildSnippet env fsPath code languageId sel d none] ∧
    (quickAddIndividual env fsPath languageId sels answers s).snippets =
      s.snippets ++ (answeredRun sels answers).map
        (fun q => buildSnippet env fsPath q.1.2 languageId q.1.1 q.2 none) ∧
    quickAddIndividual env fsPath languageId sels (none :: rest) s = s := by
  refine ⟨rfl, by simp [addWithDetails], ?_,
    quickAddIndividual_snippets env fsPath languageId sels answers s, ?_⟩
  · simp only [addWithDetails, if_neg hd]
    rfl
  · cases sels with
    | nil => rfl
    | cons a as => rfl

theorem cancellation_behavior_witness :
    addWithDetails envNoRoot "a.ts" "c" "ts" rangeA none none emptyState = emptyState :=
  (cancellation_behavior envNoRoot "a.ts" "c" "ts" rangeA none "d" (by decide)
    emptyState [] [] []).1

/-- C4 (refuted as stated): `SnippetManager.addSnippet` performs no
validation of the description — called with the empty description it
changes `count()` from 0 to 1, so it is not a no-op. -/
theorem add_empty_description_changes_count :
    getSnippetsCount (addSnippet envNoRoot "a.ts" "const x = 1;" "typescript" rangeA ""
      none emptyState) = 1 ∧
    getSnippetsCount emptyState = 0 :=
  ⟨by decide, rfl⟩

/-- C4 (amended): the empty-description guard lives in the interactive
entry point, not in `add` itself: `quickAdd` with a cancelled or empty
description answer leaves the whole state unchanged (no snippet
appended, no highlight requested, no notification fired), whereas
`addSnippet` invoked directly with an empty description appends the
snippet regardless and fires a change notification. -/
theorem empty_description_guard_in_caller (env : Env) (fsPath code languageId : String)
    (sel : Range) (s : ManagerState) :
    quickAddSingle env fsPath code languageId sel none s = s ∧
    quickAddSingle env fsPath code languageId sel (some "") s = s ∧
    (addSnippet env fsPath code languageId sel "" none s).snippets =
      s.snippets ++ [buildSnippet env fsPath code languageId sel "" none] ∧
    (addSnippet env fsPath code languageId sel "" none s).changeEvents = s.changeEvents + 1 :=
  ⟨rfl, by simp [quickAddSingle], rfl, rfl⟩

/-- C5 (refuted as stated): editing a stored snippet's description via
the description lens accepts an empty submission (the guard is
`newDescription !== undefined`, which the empty string passes) and
stores it, so the edit operation can produce a stored snippet with an
empty description. -/
theorem lens_edit_stores_empty_description :
    (handleEditDescription envNoRoot 3 "a.ts" (some "") stateA).snippets =
      [⟨"a.ts", "const x = 1;", "typescript", "", none, rangeA⟩] ∧
    ¬ DescriptionsNonEmpty (handleEditDescription envNoRoot 3 "a.ts" (some "") stateA) :=
  ⟨by decide, fun hinv => hinv ⟨"a.ts", "const x = 1;", "typescript", "", none, rangeA⟩
    (by decide) rfl⟩

/-- C5 (amended): every store operation — add, update, the lens edit
and delete handlers, invalidation, clearAll and export — preserves the
invariant that every stored snippet has a non-empty description,
provided its description inputs are non-empty; the interactive callers
enforce that for `add` and `update`, but the description-lens edit does
not, so the invariant survives a lens edit only when the submitted
description is non-empty. -/
theorem invariant_under_guarded_ops (env : Env) (op : StoreOp) (s : ManagerState)
    (hop : opHasNonEmptyDescriptions op = true) (hs : DescriptionsNonEmpty s) :
    DescriptionsNonEmpty (applyOp env op s) := by
  cases op with
  | add fsPath code languageId sel d e =>
      intro sn hsn
      simp only [applyOp] at hsn
      rw [addSnippet_snippets] at hsn
      rcases List.mem_append.mp hsn with h | h
      · exact hs sn h
      · simp only [List.mem_singleton] at h
        subst h
        simpa [opHasNonEmptyDescriptions, bne_iff_ne, buildSnippet] using hop
  | update i d e =>
      intro sn hsn
      simp only [applyOp] at hsn
      unfold updateSnippet at hsn
      split at hsn
      · rcases List.mem_or_eq_of_mem_set hsn with h | h
        · exact hs sn h
        · subst h
          simpa [opHasNonEmptyDescriptions, bne_iff_ne] using hop
      · exact hs sn hsn
  | lensEditDescription line fsPath a =>
      intro sn hsn
      simp only [applyOp] at hsn
      simp only [handleEditDescription] at hsn
      split at hsn
      · exact hs sn hsn
      · split at hsn
        · exact hs sn hsn
        · rcases mem_updateFirst hsn with h | ⟨y, hy, hxy⟩
          · exact hs sn h
          · subst hxy
            simpa [opHasNonEmptyDescriptions, bne_iff_ne] using hop
  | lensEditExplanation line fsPath a =>
      intro sn hsn
      simp only [applyOp] at hsn
      simp only [handleEditExplanation] at hsn
      split at hsn
      · exact hs sn hsn
      · split at hsn
        · exact hs sn hsn
        · rcases mem_updateFirst hsn with h | ⟨y, hy, hxy⟩
          · exact hs sn h
          · subst hxy
            exact hs y hy
  | lensDeleteDescription line fsPath confirmed =>
      intro sn hsn
      simp only [applyOp] at hsn
      simp only [handleDeleteDescription] at hsn
      split at hsn
      · exact hs sn hsn
      · split at hsn
        · exact hs sn (List.mem_filter.mp hsn).1
        · exact hs sn hsn
  | lensDeleteExplanation line fsPath confirmed =>
      intro sn hsn
      simp only [applyOp] at hsn
      simp only [handleDeleteExplanation] at hsn
      split at hsn
      · exact hs sn hsn
      · split at hsn
        · rcases mem_updateFirst hsn with h | ⟨y, hy, hxy⟩
          · exact hs sn h
          · subst hxy
            exact hs y hy
        · exact hs sn hsn
  | textChange fsPath =>
      intro sn hsn
      simp only [applyOp] at hsn
      simp only [handleTextChange] at hsn
      split at hsn
      · split at hsn
        · exact hs sn (List.mem_filter.mp hsn).1
        · exact hs sn (List.mem_filter.mp hsn).1
      · exact hs sn hsn
  | clearAll =>
      intro sn hsn
      simp [applyOp, Dokumenter.clearAll, notifySnippetsChanged] at hsn
  | exportAll t writeOk =>
      intro sn hsn
      simp only [applyOp, saveAndFinalize] at hsn
      cases writeOk with
      | true =>
          simp [Dokumenter.clearAll, notifySnippetsChanged] at hsn
      | false =>
          exact hs sn hsn

theorem invariant_under_guarded_ops_witness :
    DescriptionsNonEmpty (applyOp envNoRoot
      (StoreOp.lensEditDescription 3 "a.ts" (some "edited")) stateA) :=
  invariant_under_guarded_ops envNoRoot (StoreOp.lensEditDescription 3 "a.ts" (some "edited"))
    stateA (by decide)
    (fun sn hsn => by
      have h : sn = snippetA := by simpa [stateA] using hsn
      subst h
      decide)

/-- C7 (refuted as stated): a whitespace-only explanation is present
and blank, yet the rendered block for that snippet does contain an
`**Explanation:**` section — the source tests truthiness (present and
non-empty), not blankness. -/
theorem blank_explanation_still_rendered :
    snippetBlankExpl.explanation = some " " ∧
    isBlank " " = true ∧
    explSection snippetBlankExpl = "**Explanation:**\n\n>  \n\n" :=
  ⟨rfl, by decide, by decide⟩

/-- C7 (amended): the rendered export contains an `**Explanation:**`
block for a snippet iff its explanation is present and non-empty (the
source's truthiness test — a blank but non-empty explanation still
produces the block); when produced, the explanation is rendered as a
block-quote in which every line of the text carries the `> ` prefix. -/
theorem explanation_block_iff_nonempty (sn : CodeSnippet) :
    (explSection sn = "" ↔ (sn.explanation = none ∨ sn.explanation = some "")) ∧
    (∀ e, sn.explanation = some e → e ≠ "" →
      explSection sn = "**Explanation:**\n\n" ++ quotedLines e ++ "\n\n") := by
  constructor
  · cases hx : sn.explanation with
    | none => simp [explSection, hx]
    | some e =>
        by_cases he : e = ""
        · subst he
          simp [explSection, hx]
        · simp only [explSection, hx, if_neg he]
          constructor
          · intro h
            exact absurd h (expl_prefix_ne_empty _ _)
          · rintro (h | h)
            · exact absurd h (by simp)
            · injection h with h
              exact absurd h he
  · intro e he hne
    simp only [explSection, he, if_neg hne]
    have hsplitlit : ("**Explanation:**\n\n> " : String) = "**Explanation:**\n\n" ++ "> " := by
      apply str_ext
      rfl
    have key : ("> " : String) ++ quoteExpl e = quotedLines e := by
      apply str_ext
      rw [str_data_append]
      exact replaceNl_quoted e.data
    rw [hsplitlit, str_append_assoc "**Explanation:**\n\n" "> " (quoteExpl e), key]

theorem explanation_block_iff_nonempty_witness :
    explSection snippetA = "" ∧
    explSection ⟨"a.ts", "c", "ts", "d", some "line1\nline2", rangeA⟩ =
      "**Explanation:**\n\n" ++ quotedLines "line1\nline2" ++ "\n\n" :=
  ⟨(explanation_block_iff_nonempty snippetA).1.mpr (Or.inl rfl),
   (explanation_block_iff_nonempty ⟨"a.ts", "c", "ts", "d", some "line1\nline2", rangeA⟩).2
     "line1\nline2" rfl (by decide)⟩

end Dokumenter
